import Mathlib

/-!
Shallow embedding of the xfs firmware-extraction orchestrator
(`src/lib.rs`, `src/main.rs`, `src/args.rs`, `src/analysis/mod.rs`).

The extraction engines, the rootfs identifier (`find_linux_filesystems`),
the archive builder (`tar_fs`) and the hashing routine are external
collaborators of the orchestration core (their modules are declared but not
part of the analysed sources); their observable outcomes are supplied as
oracle data on each engine (`EngineBehavior`), faithful to the interfaces
described in the specification.  Everything the orchestrator itself does —
engine-name resolution, job spawning, per-job candidate processing, archive
path naming, result collection, device-log writing, ranking/selection,
renaming, exit codes — is translated from the Rust sources.
-/

namespace Fw2tar

/-- Stable insertion into a list that is sorted w.r.t. the boolean
relation `le`: the new element is placed before the first element it is
`le`-related to, hence after all earlier-arrived equal elements. -/
def insertLe {α : Type} (le : α → α → Bool) (x : α) : List α → List α
  | [] => [x]
  | y :: ys => if le x y then x :: y :: ys else y :: insertLe le x ys

/-- Stable sort by the boolean relation `le`.  A stable sort's output is
uniquely determined by the ordering and the input order, so this models
Rust's stable `sort_by_key` exactly. -/
def sortLe {α : Type} (le : α → α → Bool) : List α → List α
  | [] => []
  | x :: xs => insertLe le x (sortLe le xs)

theorem insertLe_perm {α : Type} (le : α → α → Bool) (x : α) (l : List α) :
    (insertLe le x l).Perm (x :: l) := by
  induction l with
  | nil => exact List.Perm.refl _
  | cons y ys ih =>
    unfold insertLe
    split
    · exact List.Perm.refl _
    · exact (List.Perm.cons y ih).trans (List.Perm.swap x y ys)

theorem sortLe_perm {α : Type} (le : α → α → Bool) (l : List α) :
    (sortLe le l).Perm l := by
  induction l with
  | nil => exact List.Perm.refl _
  | cons x xs ih =>
    exact (insertLe_perm le x (sortLe le xs)).trans (List.Perm.cons x ih)

theorem mem_insertLe {α : Type} (le : α → α → Bool) (x a : α) (l : List α) :
    a ∈ insertLe le x l ↔ a = x ∨ a ∈ l := by
  rw [(insertLe_perm le x l).mem_iff, List.mem_cons]

theorem pairwise_insertLe {α : Type} (le : α → α → Bool)
    (htot : ∀ a b, le a b = true ∨ le b a = true)
    (htrans : ∀ a b c, le a b = true → le b c = true → le a c = true)
    (x : α) (l : List α) (h : l.Pairwise (fun a b => le a b = true)) :
    (insertLe le x l).Pairwise (fun a b => le a b = true) := by
  induction l with
  | nil => simp [insertLe]
  | cons y ys ih =>
    rcases h with _ | ⟨hy, hys⟩
    unfold insertLe
    split
    · rename_i hxy
      refine List.Pairwise.cons ?_ (List.Pairwise.cons hy hys)
      intro z hz
      rcases List.mem_cons.mp hz with rfl | hz
      · exact hxy
      · exact htrans x y z hxy (hy z hz)
    · rename_i hxy
      have hyx : le y x = true := by
        rcases htot x y with h | h
        · exact absurd h hxy
        · exact h
      refine List.Pairwise.cons ?_ (ih hys)
      intro z hz
      rcases (mem_insertLe le x z ys).mp hz with rfl | hz
      · exact hyx
      · exact hy z hz

theorem pairwise_sortLe {α : Type} (le : α → α → Bool)
    (htot : ∀ a b, le a b = true ∨ le b a = true)
    (htrans : ∀ a b c, le a b = true → le b c = true → le a c = true)
    (l : List α) :
    (sortLe le l).Pairwise (fun a b => le a b = true) := by
  induction l with
  | nil => simp [sortLe]
  | cons x xs ih => exact pairwise_insertLe le htot htrans x (sortLe le xs) ih

theorem sortLe_head_le {α : Type} (le : α → α → Bool)
    (htot : ∀ a b, le a b = true ∨ le b a = true)
    (htrans : ∀ a b c, le a b = true → le b c = true → le a c = true)
    (hrefl : ∀ a, le a a = true)
    (l : List α) (r₀ : α) (rest : List α) (h : sortLe le l = r₀ :: rest) :
    ∀ r ∈ l, le r₀ r = true := by
  intro r hr
  have hperm := sortLe_perm le l
  have hmem : r ∈ sortLe le l := hperm.mem_iff.mpr hr
  rw [h] at hmem
  rcases List.mem_cons.mp hmem with rfl | hmem
  · exact hrefl r
  · have hp := pairwise_sortLe le htot htrans l
    rw [h] at hp
    rcases hp with _ | ⟨hhead, _⟩
    exact hhead r hmem

/-- Lexicographic comparison of character sequences by code point; this is
the ordering Rust's `Vec<String>::sort` uses on the device-path strings. -/
def charListLe : List Char → List Char → Bool
  | [], _ => true
  | _ :: _, [] => false
  | a :: as, b :: bs =>
    decide (a.toNat < b.toNat) || (decide (a.toNat = b.toNat) && charListLe as bs)

/-- Lexicographic string comparison (over the characters of the strings). -/
def strLe (a b : String) : Bool := charListLe a.data b.data

theorem charListLe_total : ∀ a b, charListLe a b = true ∨ charListLe b a = true
  | [], _ => Or.inl (by simp [charListLe])
  | _ :: _, [] => Or.inr (by simp [charListLe])
  | a :: as, b :: bs => by
    simp only [charListLe, Bool.or_eq_true, Bool.and_eq_true, decide_eq_true_eq]
    rcases Nat.lt_trichotomy a.toNat b.toNat with h | h | h
    · exact Or.inl (Or.inl h)
    · rcases charListLe_total as bs with hr | hr
      · exact Or.inl (Or.inr ⟨h, hr⟩)
      · exact Or.inr (Or.inr ⟨h.symm, hr⟩)
    · exact Or.inr (Or.inl h)

theorem charListLe_trans :
    ∀ a b c, charListLe a b = true → charListLe b c = true → charListLe a c = true
  | [], _, _ => by simp [charListLe]
  | _ :: _, [], _ => by simp [charListLe]
  | _ :: _, _ :: _, [] => by simp [charListLe]
  | a :: as, b :: bs, c :: cs => by
    simp only [charListLe, Bool.or_eq_true, Bool.and_eq_true, decide_eq_true_eq]
    rintro (h1 | ⟨e1, r1⟩) (h2 | ⟨e2, r2⟩)
    · exact Or.inl (Nat.lt_trans h1 h2)
    · exact Or.inl (e2 ▸ h1)
    · exact Or.inl (e1 ▸ h2)
    · exact Or.inr ⟨e1.trans e2, charListLe_trans as bs cs r1 r2⟩

theorem charListLe_refl : ∀ a, charListLe a a = true
  | [] => by simp [charListLe]
  | a :: as => by
    simp [charListLe, charListLe_refl as]

theorem strLe_total (a b : String) : strLe a b = true ∨ strLe b a = true :=
  charListLe_total a.data b.data

theorem strLe_trans (a b c : String) :
    strLe a b = true → strLe b c = true → strLe a c = true :=
  charListLe_trans a.data b.data c.data

/-- Record of one materialized (engine, candidate) archive;
translated from `ExtractionResult` in `src/analysis/mod.rs` lines 19-30. -/
structure ExtractionResult where
  extractor : String
  index : Nat
  size : Nat
  num_files : Nat
  primary : Bool
  archive_hash : String
  file_node_count : Nat
  path : String
  rootfs_path : String
deriving DecidableEq, Repr

/-- Job-local error taxonomy, translated from `ExtractProcessError` in
`src/analysis/mod.rs` lines 32-42 (diagnostic payloads elided). -/
inductive ExtractProcessError where
  | TempDirFail
  | ExtractFail
  | FailToFind
deriving DecidableEq, Repr

/-- Modelled from the spec: the run-level error type (`src/error.rs` is
declared in `lib.rs` but absent from the sources); the variants are those
constructed in `src/lib.rs` — bad input path, output collision, unknown
engine name, I/O failure. -/
inductive Fw2tarError where
  | FirmwareNotAFile (p : String)
  | FirmwareDoesNotExist (p : String)
  | OutputExists (p : String)
  | InvalidExtractor (name : String)
  | IoError (msg : String)
deriving DecidableEq, Repr

/-- Reported run outcome, translated from `BestExtractor` in
`src/lib.rs` lines 20-25. -/
inductive BestExtractor where
  | Best (e : String)
  | Only (e : String)
  | Identical (e : String)
  | None
deriving DecidableEq, Repr

/-- Modelled from the spec: the process-wide provenance record
(`src/metadata.rs` absent from the sources); fields are the ones
constructed in `src/lib.rs` lines 79-83. -/
structure Metadata where
  input_hash : String
  file : String
  fw2tar_command : List String
deriving DecidableEq, Repr

/-- Construction of the shared `Metadata` from the firmware-hash outcome,
translated from `src/lib.rs` lines 79-83: a failed `sha1_file` is replaced
by the default (empty) string via `unwrap_or_default`. -/
def mkMetadata (hashOutcome : Option String) (fwFile : String)
    (cmd : List String) : Metadata :=
  { input_hash := hashOutcome.getD "", file := fwFile, fw2tar_command := cmd }

/-- Modelled from the spec: a rootfs candidate as produced by the Rootfs
Identifier (`find_linux_filesystems`, whose module is absent from the
sources), extended with the oracle outcomes of the Archive Builder
(`tar_fs`, also absent) on that candidate: the archive node count it
returns, the content hash of the archive it writes, and the special-device
paths it records in the device-removal log. -/
structure Candidate where
  path : String
  size : Nat
  num_files : Nat
  node_count : Nat
  tar_hash : String
  devices : List String
deriving DecidableEq, Repr

/-- Modelled from the spec: the observable behavior of one extraction
engine (the engine implementations are external collaborators): whether
`extract` succeeds, and the ordered candidate sequence the Rootfs
Identifier finds in its scratch tree. -/
structure EngineBehavior where
  extract_ok : Bool
  candidates : List Candidate
deriving DecidableEq, Repr

/-- An engine resolved by the registry: its name plus its behavior. -/
structure EngineRun where
  name : String
  behavior : EngineBehavior
deriving DecidableEq, Repr

/-- Modelled from the spec: the known engine identifiers of the registry
(`src/extractors` is absent from the sources); `src/args.rs` line 22
documents the supported values as binwalk, binwalkv3, unblob, and the spec
designates unblob as the most thorough engine. -/
def knownExtractorNames : List String := ["binwalk", "binwalkv3", "unblob"]

/-- Modelled from the spec: `extractors::get_extractor` — resolves an
engine identifier to an engine, `none` for an unknown identifier. -/
def get_extractor (behavior : String → EngineBehavior)
    (n : String) : Option EngineRun :=
  if n ∈ knownExtractorNames then some { name := n, behavior := behavior n }
  else none

/-- Default of the `--primary-limit` option, from `src/args.rs` line 35
(`default_value_t = 1`). -/
def primary_limit_default : Nat := 1

/-- Archive destination for the candidate at position `i`, translated from
`src/analysis/mod.rs` lines 174-178: position 0 goes to the shared
`rootfs.tar.gz` in the output directory, later positions to
`rootfs.<i>.tar.gz`. -/
def tarPath (outputDir : String) (i : Nat) : String :=
  if i = 0 then outputDir ++ "/rootfs.tar.gz"
  else outputDir ++ "/rootfs." ++ toString i ++ ".tar.gz"

/-- Identity of the archive bytes an engine writes for its candidate at
position `i`: engines with different candidates produce different archive
contents, recorded abstractly as engine name and position. -/
def archiveContent (engineName : String) (i : Nat) : String :=
  engineName ++ ":" ++ toString i

/-- Observable effects of one successful engine job: results pushed to the
shared set (in order), archive writes (path, content) in order, device
paths recorded, and the shared metadata the job was given. -/
structure JobOutput where
  results : List ExtractionResult
  writes : List (String × String)
  removed : List String
  usedMeta : Metadata
deriving Repr

/-- One candidate-processing loop iteration's result record, translated
from the `ExtractionResult` push in `src/analysis/mod.rs` lines 186-196:
`primary` is the constant `true`, `file_node_count` is what `tar_fs`
returned, `archive_hash` is the hash of the written archive. -/
def mkResult (engineName outputDir : String) (ic : Nat × Candidate) :
    ExtractionResult :=
  { extractor := engineName
    index := ic.1
    size := ic.2.size
    num_files := ic.2.num_files
    primary := true
    archive_hash := ic.2.tar_hash
    file_node_count := ic.2.node_count
    path := tarPath outputDir ic.1
    rootfs_path := ic.2.path }

/-- One engine job, translated from `extract_and_process` in
`src/analysis/mod.rs` lines 44-202: a failed extraction is `ExtractFail`
(line 116), an empty Rootfs Identifier result is `FailToFind` (line 138),
otherwise the loop of lines 147-197 processes the enumerated candidates and
breaks as soon as the position reaches `primary_limit` (lines 148-161), so
exactly the first `min primary_limit (number of candidates)` candidates are
archived, hashed and appended.  Device paths are recorded only when the
shared device log is present (`log_devices`). -/
def extract_and_process (e : EngineRun) (outputDir : String)
    (primary_limit : Nat) (meta : Metadata) (logDevices : Bool) :
    Except ExtractProcessError JobOutput :=
  if e.behavior.extract_ok = false then .error .ExtractFail
  else if e.behavior.candidates.isEmpty then .error .FailToFind
  else
    let rows := e.behavior.candidates.enum.take primary_limit
    .ok
      { results := rows.map (mkResult e.name outputDir)
        writes := rows.map (fun ic => (tarPath outputDir ic.1, archiveContent e.name ic.1))
        removed := if logDevices then (rows.map (fun ic => ic.2.devices)).flatten else []
        usedMeta := meta }

/-- Shared state accumulated across the concurrently completing jobs:
the mutex-guarded result set, the chronological archive writes, the shared
device-path set contributions, the logged per-job errors (caught at the
task boundary, `src/lib.rs` lines 107-126), and the metadata handed to
each job. -/
structure JobsAccum where
  results : List ExtractionResult
  writes : List (String × String)
  removed : List String
  logged : List (String × ExtractProcessError)
  jobMetas : List Metadata
deriving Repr

/-- Runs the spawned jobs in completion order and accumulates their shared
effects, translated from the task bodies in `src/lib.rs` lines 107-126: a
job ending in an error has that error caught and logged and contributes
nothing to the shared state. -/
def collectJobs (outputDir : String) (primary_limit : Nat) (meta : Metadata)
    (logDevices : Bool) : List EngineRun → JobsAccum
  | [] => { results := [], writes := [], removed := [], logged := [], jobMetas := [] }
  | e :: rest =>
    let acc := collectJobs outputDir primary_limit meta logDevices rest
    match extract_and_process e outputDir primary_limit meta logDevices with
    | .error err =>
      { acc with logged := (e.name, err) :: acc.logged, jobMetas := meta :: acc.jobMetas }
    | .ok o =>
      { results := o.results ++ acc.results
        writes := o.writes ++ acc.writes
        removed := o.removed ++ acc.removed
        logged := acc.logged
        jobMetas := meta :: acc.jobMetas }

/-- The spawn loop inside `thread::scope`, translated from `src/lib.rs`
lines 103-127: engine names are resolved one at a time and a job is spawned
for each resolved engine; on the first unknown name the loop stops with
that name (the jobs already spawned keep running and are joined by the
scope).  Returns the spawned engines in spawn order and the offending name,
if any. -/
def spawnLoop (behavior : String → EngineBehavior) :
    List String → List EngineRun × Option String
  | [] => ([], none)
  | n :: ns =>
    match get_extractor behavior n with
    | none => ([], some n)
    | some e =>
      let rec_ := spawnLoop behavior ns
      (e :: rec_.1, rec_.2)

/-- The rank-0 filter of the selection stage, translated from
`src/lib.rs` line 155: a result is eligible iff its `index` is 0. -/
def rankZero (r : ExtractionResult) : Bool := r.index == 0

/-- The ranking order of the selection stage, translated from
`src/lib.rs` line 162: `sort_by_key(Reverse((file_node_count, extractor ==
"unblob")))` sorts descending by node count, with a tie broken in favor of
the engine named unblob.  `rankLE a b` says `a` sorts no later than `b`. -/
def rankLE (a b : ExtractionResult) : Bool :=
  decide (b.file_node_count < a.file_node_count) ||
  (decide (b.file_node_count = a.file_node_count) &&
    (!(b.extractor == "unblob") || (a.extractor == "unblob")))

/-- The selection stage, translated from `src/lib.rs` lines 154-165:
filter to rank-0 results; none → `None`, exactly one → `Only` that engine
unconditionally, more than one → stable-sort by the ranking key and take
the first.  Also returns the selected result (the `best_result` of line
167), when any. -/
def selectBest (results : List ExtractionResult) :
    BestExtractor × Option ExtractionResult :=
  match results.filter rankZero with
  | [] => (.None, none)
  | [r] => (.Only r.extractor, some r)
  | a :: b :: rest =>
    match sortLe rankLE (a :: b :: rest) with
    | [] => (.None, none)
    | r :: _ => (.Best r.extractor, some r)

/-- A fresh output directory: no archive exists at any path. -/
def emptyFs : String → Option String := fun _ => none

/-- Applies archive writes in chronological order; a later write to the
same path overwrites an earlier one. -/
def applyWrites (fs : String → Option String) :
    List (String × String) → (String → Option String)
  | [] => fs
  | (p, c) :: ws => applyWrites (fun q => if q = p then some c else fs q) ws

/-- Filesystem effect of `fs::rename(src, dst)` (`src/lib.rs` line 169):
`dst` now holds what `src` held; `src` is gone unless it is `dst`. -/
def renameFs (fs : String → Option String) (src dst : String) :
    String → Option String :=
  fun p => if p = dst then fs src else if p = src then none else fs p

/-- The device-removal log written at the end of the run, translated from
`src/lib.rs` lines 132-151: when device logging is on, the shared set
(deduplicated by construction) is turned into a list, sorted, and — unless
empty, in which case writing is skipped with a warning — persisted once as
the newline-joined paths. -/
def hashSetOf : List String → List String
  | [] => []
  | x :: xs =>
    let s := hashSetOf xs
    if x ∈ s then s else x :: s

def deviceLogContent : Bool → List String → Option String
  | false, _ => none
  | true, removed =>
    match sortLe strLe (hashSetOf removed) with
    | [] => none
    | a :: l => some (String.intercalate "\n" (a :: l))

/-- Final state of a run that got past configuration: the reported
outcome, the selected result, the shared result set, the archive contents
by path after the final rename, the device log written (if any), the
caught-and-logged per-job errors, and the metadata each job used. -/
structure RunFinal where
  outcome : BestExtractor
  selected : Option ExtractionResult
  results : List ExtractionResult
  fileAt : String → Option String
  deviceLog : Option String
  logged : List (String × ExtractProcessError)
  jobMetas : List Metadata

/-- Selection plus publication, translated from `src/lib.rs` lines
154-169: on `None` the function returns before the rename (line 158);
otherwise the selected result's archive is renamed onto the canonical
output path. -/
def finalizeSelection (outputDir : String) (fs : String → Option String)
    (results : List ExtractionResult) :
    BestExtractor × Option ExtractionResult × (String → Option String) :=
  match selectBest results with
  | (.None, _) => (.None, none, fs)
  | (o, some r) => (o, some r, renameFs fs r.path (outputDir ++ "/rootfs.tar.gz"))
  | (o, none) => (o, none, fs)

/-- Result of `fw2tar::main` together with the engines whose jobs were
spawned (and hence performed extraction work) during the run. -/
structure RunResult where
  ran : List String
  res : Except Fw2tarError RunFinal

/-- The orchestrator, translated from `fw2tar::main` in `src/lib.rs` from
the metadata construction (line 79) onward, for a fresh output directory:
build the shared metadata, resolve and spawn one job per requested engine
(erroring on the first unknown name after the earlier jobs have run),
collect the shared state from the jobs in their completion order, write the
device log, then select, publish and report.  `completion` lists the
spawned engines in the order their tasks complete. -/
def runMain (behavior : String → EngineBehavior)
    (names completion : List String) (outputDir fwFile : String)
    (cmd : List String) (primary_limit : Nat) (logDevices : Bool)
    (hashOutcome : Option String) : RunResult :=
  let meta := mkMetadata hashOutcome fwFile cmd
  let sp := spawnLoop behavior names
  match sp.2 with
  | some n => { ran := (sp.1.map (fun e => e.name)), res := .error (.InvalidExtractor n) }
  | none =>
    let jobs := completion.filterMap (get_extractor behavior)
    let acc := collectJobs outputDir primary_limit meta logDevices jobs
    let fs1 := applyWrites emptyFs acc.writes
    let dlog := deviceLogContent logDevices acc.removed
    let fin := finalizeSelection outputDir fs1 acc.results
    { ran := (sp.1.map (fun e => e.name))
      res := .ok
        { outcome := fin.1
          selected := fin.2.1
          results := acc.results
          fileAt := fin.2.2
          deviceLog := dlog
          logged := acc.logged
          jobMetas := acc.jobMetas } }

/-- The process exit status, translated from the CLI dispatch in
`src/main.rs` lines 17-67: a run-level error exits 1, the `None` outcome
exits 2, every other outcome lets the process end with status 0. -/
def runExit (rr : RunResult) : Nat :=
  match rr.res with
  | .error _ => 1
  | .ok s =>
    match s.outcome with
    | .None => 2
    | _ => 0

/-- Reported outcome of a run, `none` when the run failed. -/
def runOutcomeOf (rr : RunResult) : Option BestExtractor :=
  match rr.res with
  | .ok s => some s.outcome
  | .error _ => none

/-- Run-level error of a run, `none` when the run succeeded. -/
def runErrorOf (rr : RunResult) : Option Fw2tarError :=
  match rr.res with
  | .ok _ => none
  | .error e => some e

/-- Archive content at a path after the run, `none` when the run failed. -/
def runFileAt (rr : RunResult) (p : String) : Option String :=
  match rr.res with
  | .ok s => s.fileAt p
  | .error _ => none

theorem rankLE_refl (a : ExtractionResult) : rankLE a a = true := by
  simp [rankLE]

theorem rankLE_total (a b : ExtractionResult) :
    rankLE a b = true ∨ rankLE b a = true := by
  simp only [rankLE, Bool.or_eq_true, Bool.and_eq_true, decide_eq_true_eq]
  rcases Nat.lt_trichotomy a.file_node_count b.file_node_count with h | h | h
  · exact Or.inr (Or.inl h)
  · cases hu : (a.extractor == "unblob") <;> cases hv : (b.extractor == "unblob") <;>
      simp [h, hu, hv]
  · exact Or.inl (Or.inl h)

theorem rankLE_trans (a b c : ExtractionResult) :
    rankLE a b = true → rankLE b c = true → rankLE a c = true := by
  simp only [rankLE, Bool.or_eq_true, Bool.and_eq_true, decide_eq_true_eq]
  rintro (h1 | ⟨e1, u1⟩) (h2 | ⟨e2, u2⟩)
  · exact Or.inl (Nat.lt_trans h2 h1)
  · exact Or.inl (e2 ▸ h1)
  · exact Or.inl (e1 ▸ h2)
  · refine Or.inr ⟨e2.trans e1, ?_⟩
    revert u1 u2
    cases (a.extractor == "unblob") <;> cases (b.extractor == "unblob") <;>
      cases (c.extractor == "unblob") <;> simp

/-- C1: filtering the final result set to rank-0 entries, a singleton set
makes its engine the `Only` (canonical) extractor unconditionally, and a
set of two or more selects an entry that is maximal under the ordering
(archive node count descending, then the fixed tie-break preferring
unblob) and reports its engine as `Best`. -/
theorem claim_C1_selection (results : List ExtractionResult) :
    (∀ r, results.filter rankZero = [r] →
      selectBest results = (.Only r.extractor, some r)) ∧
    (2 ≤ (results.filter rankZero).length →
      (selectBest results).2.isSome = true ∧
      ∀ r₀, (selectBest results).2 = some r₀ →
        (selectBest results).1 = .Best r₀.extractor ∧
        r₀ ∈ results.filter rankZero ∧
        ∀ r ∈ results.filter rankZero, rankLE r₀ r = true) := by
  constructor
  · intro r hr
    simp [selectBest, hr]
  · intro hlen
    match hfil : results.filter rankZero with
    | [] => rw [hfil] at hlen; simp at hlen
    | [r] => rw [hfil] at hlen; simp at hlen
    | a :: b :: rest =>
      have hsort : ∃ r₀ tl, sortLe rankLE (a :: b :: rest) = r₀ :: tl := by
        match hs : sortLe rankLE (a :: b :: rest) with
        | [] =>
          have := (sortLe_perm rankLE (a :: b :: rest)).length_eq
          rw [hs] at this
          simp at this
        | r₀ :: tl => exact ⟨r₀, tl, rfl⟩
      obtain ⟨r₀, tl, hs⟩ := hsort
      have hsel : selectBest results = (.Best r₀.extractor, some r₀) := by
        simp only [selectBest, hfil, hs]
      refine ⟨by rw [hsel]; rfl, ?_⟩
      intro r₁ hr₁
      rw [hsel] at hr₁
      simp only [Option.some.injEq] at hr₁
      subst hr₁
      refine ⟨by rw [hsel], ?_, ?_⟩
      · have hm : r₀ ∈ sortLe rankLE (a :: b :: rest) := by
          rw [hs]; exact List.mem_cons_self r₀ tl
        exact (sortLe_perm rankLE (a :: b :: rest)).mem_iff.mp hm
      · intro r hr
        exact sortLe_head_le rankLE rankLE_total rankLE_trans rankLE_refl
          (a :: b :: rest) r₀ tl hs r hr

/-- Concrete selection scenarios used as witnesses and evidence. -/
def selOnlyDemo : List ExtractionResult :=
  [{ extractor := "binwalk", index := 0, size := 10, num_files := 4, primary := true,
     archive_hash := "h1", file_node_count := 500, path := "out/rootfs.tar.gz",
     rootfs_path := "xfs-extract/binwalk/r" },
   { extractor := "binwalk", index := 1, size := 3, num_files := 2, primary := true,
     archive_hash := "h2", file_node_count := 40, path := "out/rootfs.1.tar.gz",
     rootfs_path := "xfs-extract/binwalk/r2" }]

def unblobDemoResult : ExtractionResult :=
  { extractor := "unblob", index := 0, size := 12, num_files := 6, primary := true,
    archive_hash := "h3", file_node_count := 600, path := "out/rootfs.tar.gz",
    rootfs_path := "xfs-extract/unblob/r" }

def selMultiDemo : List ExtractionResult :=
  [{ extractor := "binwalk", index := 0, size := 10, num_files := 4, primary := true,
     archive_hash := "h1", file_node_count := 500, path := "out/rootfs.tar.gz",
     rootfs_path := "xfs-extract/binwalk/r" },
   unblobDemoResult]

/-- C1 witness: on a two-engine result set the theorem's hypotheses hold
and selection picks the 600-node unblob entry as Best. -/
theorem claim_C1_selection_witness :
    2 ≤ (selMultiDemo.filter rankZero).length ∧
    (selectBest selMultiDemo).1 = .Best "unblob" := by
  refine ⟨by decide, ?_⟩
  have h := (claim_C1_selection selMultiDemo).2 (by decide)
  have h2 := h.2 unblobDemoResult (by decide)
  exact h2.1

/-- Concrete engine behaviors used by witnesses and evidence: binwalk
succeeds with one 500-node candidate, unblob with one 600-node candidate,
binwalkv3 fails to extract. -/
def demoCand : Candidate :=
  { path := "xfs-extract/binwalk/r", size := 10, num_files := 4,
    node_count := 500, tar_hash := "hA", devices := [] }

def demoBehavior : String → EngineBehavior := fun n =>
  if n = "binwalk" then { extract_ok := true, candidates := [demoCand] }
  else if n = "unblob" then
    { extract_ok := true
      candidates := [{ path := "xfs-extract/unblob/r", size := 12, num_files := 6,
                       node_count := 600, tar_hash := "hB", devices := [] }] }
  else { extract_ok := false, candidates := [] }

def demoMeta : Metadata := mkMetadata (some "ih") "fw.bin" []

def demoEngine : EngineRun :=
  { name := "binwalk", behavior := demoBehavior "binwalk" }

def failEngine : EngineRun :=
  { name := "binwalkv3", behavior := demoBehavior "binwalkv3" }

def demoJobOutput : JobOutput :=
  match extract_and_process demoEngine "out" 1 demoMeta false with
  | .ok o => o
  | .error _ => { results := [], writes := [], removed := [], usedMeta := demoMeta }

/-- C9: every result appended by a job carries `primary = true` regardless
of the candidate's position, and the selection stage's rank-0 filter is
decided solely by the `index` field — changing `primary` never changes
it. -/
theorem claim_C9_primary_field :
    (∀ e outDir pl meta ld out,
      extract_and_process e outDir pl meta ld = .ok out →
      ∀ r ∈ out.results, r.primary = true) ∧
    (∀ r : ExtractionResult, rankZero r = decide (r.index = 0)) ∧
    (∀ (r : ExtractionResult) (b : Bool),
      rankZero { r with primary := b } = rankZero r) := by
  refine ⟨?_, ?_, ?_⟩
  · intro e outDir pl meta ld out hok r hr
    unfold extract_and_process at hok
    split at hok
    · exact absurd hok (by simp)
    · split at hok
      · exact absurd hok (by simp)
      · simp only [Except.ok.injEq] at hok
        subst hok
        simp only [List.mem_map] at hr
        obtain ⟨ic, -, rfl⟩ := hr
        rfl
  · intro r
    by_cases h : r.index = 0 <;> simp [rankZero, h]
  · intro r b
    rfl

/-- C9 witness: the binwalk demo job succeeds and its appended result has
`primary = true`. -/
theorem claim_C9_primary_field_witness :
    extract_and_process demoEngine "out" 1 demoMeta false = .ok demoJobOutput ∧
    (mkResult "binwalk" "out" (0, demoCand)).primary = true :=
  ⟨rfl, claim_C9_primary_field.1 demoEngine "out" 1 demoMeta false demoJobOutput rfl
    (mkResult "binwalk" "out" (0, demoCand)) (by decide)⟩

/-- C4: a failed extraction yields the job-local `ExtractFail`, an empty
Rootfs Identifier result yields `FailToFind`; a job ending in either error
is caught and logged at the task boundary and leaves the shared result set,
archive writes and device records exactly as if the job were absent, and
the orchestrator still completes (returns a final state) whatever the jobs
do. -/
theorem claim_C4_failure_isolation :
    (∀ e outDir pl meta ld, e.behavior.extract_ok = false →
      extract_and_process e outDir pl meta ld = .error .ExtractFail) ∧
    (∀ e outDir pl meta ld, e.behavior.extract_ok = true →
      e.behavior.candidates = [] →
      extract_and_process e outDir pl meta ld = .error .FailToFind) ∧
    (∀ outDir pl meta ld jobs1 jobs2 e err,
      extract_and_process e outDir pl meta ld = .error err →
      (collectJobs outDir pl meta ld (jobs1 ++ e :: jobs2)).results
        = (collectJobs outDir pl meta ld (jobs1 ++ jobs2)).results ∧
      (collectJobs outDir pl meta ld (jobs1 ++ e :: jobs2)).writes
        = (collectJobs outDir pl meta ld (jobs1 ++ jobs2)).writes ∧
      (collectJobs outDir pl meta ld (jobs1 ++ e :: jobs2)).removed
        = (collectJobs outDir pl meta ld (jobs1 ++ jobs2)).removed ∧
      (e.name, err) ∈ (collectJobs outDir pl meta ld (jobs1 ++ e :: jobs2)).logged) ∧
    (∀ behavior names completion outputDir fw cmd pl ld ih,
      (spawnLoop behavior names).2 = none →
      ∃ s, (runMain behavior names completion outputDir fw cmd pl ld ih).res
        = .ok s) := by
  refine ⟨?_, ?_, ?_, ?_⟩
  · intro e outDir pl meta ld h
    simp [extract_and_process, h]
  · intro e outDir pl meta ld h1 h2
    simp [extract_and_process, h1, h2]
  · intro outDir pl meta ld jobs1 jobs2 e err herr
    induction jobs1 with
    | nil =>
      simp only [List.nil_append]
      rw [collectJobs, herr]
      exact ⟨rfl, rfl, rfl, List.mem_cons_self _ _⟩
    | cons j js ih =>
      obtain ⟨ih1, ih2, ih3, ih4⟩ := ih
      simp only [List.cons_append]
      rw [collectJobs, collectJobs]
      cases hx : extract_and_process j outDir pl meta ld with
      | error e2 => exact ⟨ih1, ih2, ih3, List.mem_cons_of_mem _ ih4⟩
      | ok o => exact ⟨by rw [ih1], by rw [ih2], by rw [ih3], ih4⟩
  · intro behavior names completion outputDir fw cmd pl ld ih h
    simp only [runMain, h]
    exact ⟨_, rfl⟩

/-- C4 witness: binwalkv3's extraction fails, the error is logged, and a
run over binwalk and binwalkv3 still completes. -/
theorem claim_C4_failure_isolation_witness :
    extract_and_process failEngine "out" 1 demoMeta false
      = .error .ExtractFail ∧
    ("binwalkv3", ExtractProcessError.ExtractFail)
      ∈ (collectJobs "out" 1 demoMeta false
          ([demoEngine] ++ failEngine :: [])).logged ∧
    runErrorOf (runMain demoBehavior ["binwalk", "binwalkv3"]
      ["binwalk", "binwalkv3"] "out" "fw.bin" [] 1 false (some "ih")) = none := by
  have h1 := claim_C4_failure_isolation.1 failEngine "out" 1 demoMeta false rfl
  have h3 := (claim_C4_failure_isolation.2.2.1 "out" 1 demoMeta false
    [demoEngine] [] failEngine .ExtractFail h1).2.2.2
  obtain ⟨s, hs⟩ := claim_C4_failure_isolation.2.2.2 demoBehavior
    ["binwalk", "binwalkv3"] ["binwalk", "binwalkv3"] "out" "fw.bin" [] 1 false
    (some "ih") (by decide)
  exact ⟨h1, h3, by simp [runErrorOf, hs]⟩

/-- C6: a job whose Rootfs Identifier returns a non-empty candidate list
completes successfully and archives, hashes and appends a result for
exactly the first `min primary_limit n` candidates, in order; the
`--primary-limit` default is 1. -/
theorem claim_C6_primary_cap :
    primary_limit_default = 1 ∧
    ∀ e outDir pl meta ld, e.behavior.extract_ok = true →
      e.behavior.candidates ≠ [] →
      ∃ out, extract_and_process e outDir pl meta ld = .ok out ∧
        out.results.length = min pl e.behavior.candidates.length ∧
        out.results.map (fun r => r.index)
          = List.range (min pl e.behavior.candidates.length) ∧
        out.results.map (fun r => r.rootfs_path)
          = (e.behavior.candidates.take pl).map (fun c => c.path) ∧
        out.results.map (fun r => r.archive_hash)
          = (e.behavior.candidates.take pl).map (fun c => c.tar_hash) ∧
        out.writes.length = min pl e.behavior.candidates.length := by
  refine ⟨rfl, ?_⟩
  intro e outDir pl meta ld h1 h2
  have h3 : e.behavior.candidates.isEmpty = false := by
    cases hc : e.behavior.candidates with
    | nil => exact absurd hc h2
    | cons c cs => rfl
  have hok : extract_and_process e outDir pl meta ld = .ok
      { results := (e.behavior.candidates.enum.take pl).map (mkResult e.name outDir)
        writes := (e.behavior.candidates.enum.take pl).map
          (fun ic => (tarPath outDir ic.1, archiveContent e.name ic.1))
        removed := if ld then
            ((e.behavior.candidates.enum.take pl).map (fun ic => ic.2.devices)).flatten
          else []
        usedMeta := meta } := by
    rw [extract_and_process, h1, h3]
    simp
  refine ⟨_, hok, ?_, ?_, ?_, ?_, ?_⟩
  · simp [List.length_take, List.enum_length]
  · rw [List.map_map]
    show (e.behavior.candidates.enum.take pl).map Prod.fst
        = List.range (min pl e.behavior.candidates.length)
    rw [List.map_take, List.enum_map_fst, List.take_range]
  · rw [List.map_map]
    have hsnd : e.behavior.candidates.take pl
        = (e.behavior.candidates.enum.take pl).map Prod.snd := by
      rw [List.map_take, List.enum_map_snd]
    rw [hsnd, List.map_map]
    exact rfl
  · rw [List.map_map]
    have hsnd : e.behavior.candidates.take pl
        = (e.behavior.candidates.enum.take pl).map Prod.snd := by
      rw [List.map_take, List.enum_map_snd]
    rw [hsnd, List.map_map]
    exact rfl
  · simp [List.length_take, List.enum_length]

theorem jobOk_no_rank0 (e : EngineRun) (outDir : String) (pl : Nat)
    (meta : Metadata) (ld : Bool) (out : JobOutput)
    (hok : extract_and_process e outDir pl meta ld = .ok out)
    (hfil : out.results.filter rankZero = []) :
    out.results = [] ∧ out.writes = [] := by
  unfold extract_and_process at hok
  split at hok
  · exact absurd hok (by simp)
  · split at hok
    · exact absurd hok (by simp)
    · rename_i hne
      simp only [Except.ok.injEq] at hok
      subst hok
      cases hpl : pl with
      | zero => simp
      | succ pl2 =>
        cases hcs : e.behavior.candidates with
        | nil => rw [hcs] at hne; exact absurd rfl hne
        | cons c cs =>
          rw [hcs, hpl] at hfil
          simp [List.enum_cons, rankZero, mkResult] at hfil

theorem collect_no_rank0 (outDir : String) (pl : Nat) (meta : Metadata)
    (ld : Bool) (jobs : List EngineRun)
    (h : (collectJobs outDir pl meta ld jobs).results.filter rankZero = []) :
    (collectJobs outDir pl meta ld jobs).writes = [] := by
  induction jobs with
  | nil => rfl
  | cons e rest ih =>
    rw [collectJobs] at h ⊢
    cases hx : extract_and_process e outDir pl meta ld with
    | error err =>
      simp only [hx] at h ⊢
      exact ih h
    | ok o =>
      simp only [hx] at h ⊢
      rw [List.filter_append] at h
      obtain ⟨ho, hacc⟩ := List.append_eq_nil.mp h
      rw [(jobOk_no_rank0 e outDir pl meta ld o hx ho).2, ih hacc]
      rfl

/-- C3: a run (past configuration) in which no engine contributes a rank-0
entry to the result set ends in the distinct `None` outcome rather than an
error, the process exit status is the failure code 2, and nothing was ever
written to the canonical `rootfs.tar.gz` path in the output directory. -/
theorem claim_C3_none_outcome (behavior : String → EngineBehavior)
    (names completion : List String) (outputDir fw : String)
    (cmd : List String) (pl : Nat) (ld : Bool) (ih : Option String)
    (h1 : (spawnLoop behavior names).2 = none)
    (h2 : ((collectJobs outputDir pl (mkMetadata ih fw cmd) ld
        (completion.filterMap (get_extractor behavior))).results.filter
          rankZero) = []) :
    runOutcomeOf (runMain behavior names completion outputDir fw cmd pl ld ih)
      = some .None ∧
    runFileAt (runMain behavior names completion outputDir fw cmd pl ld ih)
      (outputDir ++ "/rootfs.tar.gz") = none ∧
    runExit (runMain behavior names completion outputDir fw cmd pl ld ih)
      = 2 := by
  have hw := collect_no_rank0 outputDir pl (mkMetadata ih fw cmd) ld
    (completion.filterMap (get_extractor behavior)) h2
  have hsel : selectBest (collectJobs outputDir pl (mkMetadata ih fw cmd) ld
      (completion.filterMap (get_extractor behavior))).results = (.None, none) := by
    rw [selectBest, h2]
  simp only [runMain, h1, runOutcomeOf, runFileAt, runExit, finalizeSelection,
    hsel, hw, applyWrites, emptyFs]
  exact ⟨trivial, trivial, trivial⟩

/-- C3 witness: with both engines failing to extract, the run reports
`None`, exits 2, and leaves no canonical archive. -/
theorem claim_C3_none_outcome_witness :
    (spawnLoop (fun _ => { extract_ok := false, candidates := [] })
      ["binwalk", "unblob"]).2 = none ∧
    runOutcomeOf (runMain (fun _ => { extract_ok := false, candidates := [] })
      ["binwalk", "unblob"] ["binwalk", "unblob"] "out" "fw.bin" [] 1 false
      (some "ih")) = some .None ∧
    runFileAt (runMain (fun _ => { extract_ok := false, candidates := [] })
      ["binwalk", "unblob"] ["binwalk", "unblob"] "out" "fw.bin" [] 1 false
      (some "ih")) "out/rootfs.tar.gz" = none ∧
    runExit (runMain (fun _ => { extract_ok := false, candidates := [] })
      ["binwalk", "unblob"] ["binwalk", "unblob"] "out" "fw.bin" [] 1 false
      (some "ih")) = 2 := by
  have h := claim_C3_none_outcome (fun _ => { extract_ok := false, candidates := [] })
    ["binwalk", "unblob"] ["binwalk", "unblob"] "out" "fw.bin" [] 1 false
    (some "ih") (by decide) (by decide)
  exact ⟨by decide, h.1, h.2.1, h.2.2⟩

theorem mem_hashSetOf : ∀ (l : List String) (x : String),
    x ∈ hashSetOf l ↔ x ∈ l
  | [], x => by simp [hashSetOf]
  | y :: ys, x => by
    rw [hashSetOf]
    split
    · rename_i hy
      have hy2 : y ∈ ys := (mem_hashSetOf ys y).mp hy
      rw [mem_hashSetOf ys x]
      simp only [List.mem_cons]
      constructor
      · exact Or.inr
      · rintro (rfl | hx)
        · exact hy2
        · exact hx
    · simp only [List.mem_cons, mem_hashSetOf ys x]

theorem nodup_hashSetOf (l : List String) : (hashSetOf l).Nodup := by
  induction l with
  | nil => exact List.nodup_nil
  | cons y ys ih =>
    rw [hashSetOf]
    split
    · exact ih
    · exact List.Nodup.cons (by assumption) ih

/-- C7: with device logging enabled, the sorted deduplicated view of the
union of device paths recorded by the jobs has exactly the union's members,
is lexicographically sorted and duplicate-free; and whenever that union is
non-empty the run persists it, once, as the newline-joined single device
log, which any successful run's final state carries verbatim. -/
theorem claim_C7_device_log :
    (∀ removed : List String,
      (∀ p, p ∈ sortLe strLe (hashSetOf removed) ↔ p ∈ removed) ∧
      (sortLe strLe (hashSetOf removed)).Pairwise (fun a b => strLe a b = true) ∧
      (sortLe strLe (hashSetOf removed)).Nodup ∧
      (removed ≠ [] →
        deviceLogContent true removed
          = some (String.intercalate "\n" (sortLe strLe (hashSetOf removed))))) ∧
    (∀ (behavior : String → EngineBehavior) (names completion : List String)
      (outputDir fw : String) (cmd : List String) (pl : Nat) (ih : Option String),
      (spawnLoop behavior names).2 = none →
      ∀ s, (runMain behavior names completion outputDir fw cmd pl true ih).res
          = .ok s →
        s.deviceLog = deviceLogContent true
          (collectJobs outputDir pl (mkMetadata ih fw cmd) true
            (completion.filterMap (get_extractor behavior))).removed) := by
  constructor
  · intro removed
    refine ⟨?_, ?_, ?_, ?_⟩
    · intro p
      rw [(sortLe_perm strLe (hashSetOf removed)).mem_iff, mem_hashSetOf]
    · exact pairwise_sortLe strLe strLe_total strLe_trans (hashSetOf removed)
    · exact ((sortLe_perm strLe (hashSetOf removed)).nodup_iff).mpr
        (nodup_hashSetOf removed)
    · intro hne
      obtain ⟨x, xs, hx⟩ : ∃ x xs, removed = x :: xs := by
        cases removed with
        | nil => exact absurd rfl hne
        | cons x xs => exact ⟨x, xs, rfl⟩
      have hmem : x ∈ sortLe strLe (hashSetOf removed) := by
        rw [(sortLe_perm strLe (hashSetOf removed)).mem_iff, mem_hashSetOf, hx]
        exact List.mem_cons_self x xs
      cases hs : sortLe strLe (hashSetOf removed) with
      | nil => rw [hs] at hmem; exact absurd hmem (List.not_mem_nil x)
      | cons a l => rw [deviceLogContent, hs]
  · intro behavior names completion outputDir fw cmd pl ih h1 s hs
    simp only [runMain, h1] at hs
    simp only [Except.ok.injEq] at hs
    rw [← hs]

/-- C7 witness: two engines record overlapping device paths; the written
log is the sorted deduplicated union, newline-joined. -/
theorem claim_C7_device_log_witness :
    deviceLogContent true ["dev/b", "dev/a", "dev/a", "dev/c"]
      = some "dev/a\ndev/b\ndev/c" := by
  have h := (claim_C7_device_log.1 ["dev/b", "dev/a", "dev/a", "dev/c"]).2.2.2
    (by decide)
  rw [h]
  decide

/-- C6 witness: the binwalk demo job with one candidate and the default
primary limit appends exactly one result. -/
theorem claim_C6_primary_cap_witness : demoJobOutput.results.length = 1 := by
  obtain ⟨out, hout, hlen, -⟩ := claim_C6_primary_cap.2 demoEngine "out" 1
    demoMeta false rfl (by decide)
  have heq : Except.ok (ε := ExtractProcessError) out = .ok demoJobOutput := by
    rw [← hout]
    rfl
  simp only [Except.ok.injEq] at heq
  rw [← heq, hlen]
  rfl

theorem spawnLoop_characterization (behavior : String → EngineBehavior) :
    ∀ names : List String,
      (spawnLoop behavior names).2
        = names.find? (fun m => !(decide (m ∈ knownExtractorNames))) ∧
      (spawnLoop behavior names).1.map (fun e => e.name)
        = names.takeWhile (fun m => decide (m ∈ knownExtractorNames))
  | [] => ⟨rfl, rfl⟩
  | n :: ns => by
    obtain ⟨ih1, ih2⟩ := spawnLoop_characterization behavior ns
    by_cases h : n ∈ knownExtractorNames
    · rw [spawnLoop]
      rw [show get_extractor behavior n
          = some { name := n, behavior := behavior n } from by
        rw [get_extractor, if_pos h]]
      constructor
      · rw [List.find?_cons_of_neg _ (by simp [h]), ih1]
      · rw [List.takeWhile_cons_of_pos (by simp [h])]
        simp only [List.map_cons, ih2]
    · rw [spawnLoop]
      rw [show get_extractor behavior n = none from by
        rw [get_extractor, if_neg h]]
      constructor
      · rw [List.find?_cons_of_pos _ (by simp [h])]
      · rw [List.takeWhile_cons_of_neg (by simp [h])]
        rfl

/-- C5 counterexample: the engine list unblob,bogus fails with
`InvalidExtractor "bogus"`, yet extraction work was performed: the unblob
job was spawned and ran before the unknown name was examined, refuting the
claim that no engine runs in such a run. -/
theorem claim_C5_counterexample :
    runErrorOf (runMain demoBehavior ["unblob", "bogus"] [] "out" "fw.bin"
      [] 1 false (some "ih")) = some (.InvalidExtractor "bogus") ∧
    (runMain demoBehavior ["unblob", "bogus"] [] "out" "fw.bin"
      [] 1 false (some "ih")).ran = ["unblob"] := by
  constructor
  · rfl
  · rfl

/-- C5 (amended): an unknown identifier in the engine-selection list makes
the run fail with `InvalidExtractor` naming the first unknown identifier,
and no engine at or after that identifier ever starts; however the engines
listed before the first unknown identifier are spawned and do perform
extraction work before the failure is reported. -/
theorem claim_C5_amended_lazy_validation (behavior : String → EngineBehavior)
    (names completion : List String) (outputDir fw : String)
    (cmd : List String) (pl : Nat) (ld : Bool) (ihash : Option String)
    (n : String)
    (h : names.find? (fun m => !(decide (m ∈ knownExtractorNames))) = some n) :
    runErrorOf (runMain behavior names completion outputDir fw cmd pl ld ihash)
      = some (.InvalidExtractor n) ∧
    (runMain behavior names completion outputDir fw cmd pl ld ihash).ran
      = names.takeWhile (fun m => decide (m ∈ knownExtractorNames)) := by
  obtain ⟨h1, h2⟩ := spawnLoop_characterization behavior names
  rw [h] at h1
  constructor
  · simp only [runMain, h1, runErrorOf]
  · simp only [runMain, h1]
    exact h2

/-- C5 witness: with binwalk listed before the unknown name nope, the run
errors with `InvalidExtractor "nope"` and binwalk is exactly the engine
that ran. -/
theorem claim_C5_amended_lazy_validation_witness :
    (["binwalk", "nope", "unblob"].find?
      (fun m => !(decide (m ∈ knownExtractorNames)))) = some "nope" ∧
    runErrorOf (runMain demoBehavior ["binwalk", "nope", "unblob"] [] "out"
      "fw.bin" [] 1 false (some "ih")) = some (.InvalidExtractor "nope") ∧
    (runMain demoBehavior ["binwalk", "nope", "unblob"] [] "out" "fw.bin"
      [] 1 false (some "ih")).ran = ["binwalk"] := by
  have h := claim_C5_amended_lazy_validation demoBehavior
    ["binwalk", "nope", "unblob"] [] "out" "fw.bin" [] 1 false (some "ih")
    "nope" (by decide)
  refine ⟨by decide, h.1, ?_⟩
  rw [h.2]
  decide

/-- The failing C2 run: binwalk finds one 500-node candidate and unblob
one 600-node candidate; unblob's task completes first, binwalk's second. -/
def rrC2 : RunResult :=
  runMain demoBehavior ["binwalk", "unblob"] ["unblob", "binwalk"] "out"
    "fw.bin" [] 1 false (some "ih")

/-- C2: both engines write their rank-0 archive to the same path
`out/rootfs.tar.gz` and the final rename of the selected result is a no-op
on that very path, so while the run deterministically reports the
600-node engine unblob as best, the archive actually published at
`out/rootfs.tar.gz` is the one written by whichever engine finished last —
here binwalk's 500-node archive, not unblob's output as the claim (and the
spec's determinism requirement) demand.  The completion order used is a
permutation of the spawned engines. -/
theorem claim_C2_last_writer_wins :
    runOutcomeOf rrC2 = some (.Best "unblob") ∧
    runFileAt rrC2 "out/rootfs.tar.gz" = some (archiveContent "binwalk" 0) ∧
    List.Perm ["unblob", "binwalk"] ["binwalk", "unblob"] := by
  refine ⟨by decide, by decide, ?_⟩
  decide

/-- Two engines producing identical primary results (same node count, same
archive hash). -/
def agreeA : ExtractionResult :=
  { extractor := "binwalk", index := 0, size := 12, num_files := 6,
    primary := true, archive_hash := "same", file_node_count := 600,
    path := "out/rootfs.tar.gz", rootfs_path := "r" }

def agreeB : ExtractionResult :=
  { agreeA with extractor := "binwalkv3" }

/-- C8 counterexample: a run whose two succeeded engines agree (identical
node counts and archive hashes) is reported through the ranking outcome
`Best`, not through the declared-but-never-constructed `Identical`
outcome. -/
theorem claim_C8_counterexample :
    (selectBest [agreeA, agreeB]).1 = .Best "binwalk" := by decide

/-- C8 (amended): the selection stage only ever reports three of the four
declared outcomes — `None`, `Only` or `Best`; the `Identical` variant is
declared in `BestExtractor` and handled by the CLI but never produced, so
runs in which all succeeded engines agree are still reported via ranking
(`Best`).  All three reachable outcomes are exhibited. -/
theorem claim_C8_amended_three_outcomes :
    (∀ results : List ExtractionResult,
      (selectBest results).1 = .None ∨
      (∃ e, (selectBest results).1 = .Only e) ∨
      (∃ e, (selectBest results).1 = .Best e)) ∧
    (selectBest []).1 = .None ∧
    (selectBest [agreeA]).1 = .Only "binwalk" ∧
    (selectBest [agreeA, agreeB]).1 = .Best "binwalk" ∧
    (selectBest selMultiDemo).1 = .Best "unblob" := by
  refine ⟨?_, by decide, by decide, by decide, by decide⟩
  intro results
  unfold selectBest
  split
  · exact Or.inl rfl
  · exact Or.inr (Or.inl ⟨_, rfl⟩)
  · split
    · exact Or.inl rfl
    · exact Or.inr (Or.inr ⟨_, rfl⟩)

/-- C10: when hashing the firmware input fails, the shared `Metadata` is
built with the empty input hash, the run behaves exactly as a run whose
hash computed to the empty string (in particular it does not abort), and
every job is handed metadata carrying that empty hash. -/
theorem claim_C10_hash_failure :
    (∀ fw cmd, mkMetadata none fw cmd
      = { input_hash := "", file := fw, fw2tar_command := cmd }) ∧
    (∀ (behavior : String → EngineBehavior) (names completion : List String)
      (outputDir fw : String) (cmd : List String) (pl : Nat) (ld : Bool),
      runMain behavior names completion outputDir fw cmd pl ld none
        = runMain behavior names completion outputDir fw cmd pl ld (some "")) ∧
    (∀ (outputDir fw : String) (cmd : List String) (pl : Nat) (ld : Bool)
      (jobs : List EngineRun) (m : Metadata),
      m ∈ (collectJobs outputDir pl (mkMetadata none fw cmd) ld jobs).jobMetas →
      m.input_hash = "") := by
  refine ⟨fun fw cmd => rfl, fun behavior names completion outputDir fw cmd pl ld => rfl, ?_⟩
  intro outputDir fw cmd pl ld jobs m hm
  induction jobs with
  | nil => exact absurd hm (List.not_mem_nil m)
  | cons e rest ih =>
    rw [collectJobs] at hm
    cases hx : extract_and_process e outputDir pl (mkMetadata none fw cmd) ld with
    | error err =>
      simp only [hx] at hm
      rcases List.mem_cons.mp hm with rfl | hm2
      · rfl
      · exact ih hm2
    | ok o =>
      simp only [hx] at hm
      rcases List.mem_cons.mp hm with rfl | hm2
      · rfl
      · exact ih hm2

/-- C10 witness: in a one-engine run with a failed input hash, the job's
metadata carries the empty input hash. -/
theorem claim_C10_hash_failure_witness :
    (mkMetadata none "fw.bin" []).input_hash = "" :=
  claim_C10_hash_failure.2.2 "out" "fw.bin" [] 1 false [demoEngine]
    (mkMetadata none "fw.bin" []) (by decide)

end Fw2tar
